import Mathlib

/-
  Verification development for the Plan Builder layout engine
  (src/models/planBuilder.ts): a force-directed 2-D layout of named
  rectangular rooms driven by a list of directed relations.

  The TypeScript source is shallowly embedded: strings are lists of
  characters, JavaScript numbers are exact reals, the insertion-ordered
  node Map is an insertion-ordered list of nodes, and the per-frame
  animation loop is a step function on the node list.
-/

namespace PlanBuilder

/-- Room or edge names: strings modelled as lists of characters. -/
abbrev Str : Type := List Char

/-- Directed edge describing desired adjacency, source field names
    `from`/`to` renamed to `src`/`dst` (`from` is reserved in Lean). -/
structure Edge where
  src : Str
  dst : Str
deriving DecidableEq

/-- Planar vector with real coordinates (THREE.Vector2). -/
@[ext]
structure Vec2 where
  x : ℝ
  y : ℝ

/-- Node state used by the layout/simulation loop. -/
@[ext]
structure Node where
  name : Str
  pos : Vec2
  vel : Vec2
  w : ℝ
  h : ℝ

/-- Simulation coefficients (`params` in `createInitialState`). -/
structure SimulationParams where
  centerK : ℝ
  attractK : ℝ
  repelK : ℝ
  damping : ℝ
  maxSpeed : ℝ
  targetGap : ℝ
  minGap : ℝ
  stopVel : ℝ

/-- The tuned parameter values from `createInitialState`. -/
noncomputable def defaultParams : SimulationParams :=
  { centerK := 0.02, attractK := 0.02, repelK := 2000, damping := 0.9,
    maxSpeed := 400, targetGap := 40, minGap := 20, stopVel := 2 }

/-- Whitespace test used for JS `trim` and the regex class `\s`. -/
def wsChar (c : Char) : Bool := c.isWhitespace

/-- JS `String.prototype.trim`: drop whitespace from both ends. -/
def trimStr (s : Str) : Str :=
  ((s.dropWhile wsChar).reverse.dropWhile wsChar).reverse

/-- JS `input.split(/\n+/)`: split on maximal runs of newlines. -/
def splitNlPlus (cs : Str) : List Str :=
  match h : cs.dropWhile (fun c => c ≠ '\n') with
  | [] => [cs.takeWhile (fun c => c ≠ '\n')]
  | _ :: t =>
    cs.takeWhile (fun c => c ≠ '\n') :: splitNlPlus (t.dropWhile (fun c => c = '\n'))
termination_by cs.length
decreasing_by
  have h1 : (t.dropWhile (fun c => c = '\n')).length ≤ t.length :=
    (List.dropWhile_suffix _).length_le
  have h2 : (cs.dropWhile (fun c => c ≠ '\n')).length ≤ cs.length :=
    (List.dropWhile_suffix _).length_le
  rw [h] at h2
  simp only [List.length_cons] at h2
  omega

/-- Matcher for the tail part `\s*=>\s*(.+)$` of the line regex: on
    success returns the characters after the literal arrow (the part from
    which the second capture group is obtained, up to leading whitespace
    that the following trim removes anyway). -/
def matchTail (rest : Str) : Option Str :=
  match rest.dropWhile wsChar with
  | c1 :: c2 :: r3 =>
    if c1 = '=' ∧ c2 = '>' then (if r3.isEmpty then none else some r3)
    else none
  | _ => none

/-- Backtracking search of `^(.+?)\s*=>\s*(.+)$`: grow the non-greedy
    first group (accumulated in `acc`) one character at a time and test
    the remainder with `matchTail`; the first success wins. -/
def findArrow (acc : Str) : Str → Option (Str × Str)
  | [] => none
  | c :: rest =>
    match matchTail rest with
    | some r3 => some (acc ++ [c], r3)
    | none => findArrow (acc ++ [c]) rest

/-- One line of `parseEdges`: regex match, trim both groups, and reject
    when a group is empty after trimming (`if (!from || !to) return null`). -/
def matchLine (l : Str) : Option Edge :=
  match findArrow [] l with
  | none => none
  | some (g1, g2) =>
    if (trimStr g1).isEmpty || (trimStr g2).isEmpty then none
    else some { src := trimStr g1, dst := trimStr g2 }

/-- Parse text lines into edges (`parseEdges`): split on newline runs,
    trim, drop blank lines, and keep lines matching the arrow pattern. -/
def parseEdges (input : Str) : List Edge :=
  (((splitNlPlus input).map trimStr).filter (fun l => !l.isEmpty)).filterMap matchLine

/-- Unique, deterministic list of room names given edges (`uniqueRooms`):
    first-seen order of all endpoints, as JS `Set` insertion order. -/
def uniqueRooms (edges : List Edge) : List Str :=
  edges.foldl (fun acc e =>
    let acc1 := if e.src ∈ acc then acc else acc ++ [e.src]
    if e.dst ∈ acc1 then acc1 else acc1 ++ [e.dst]) []

/-- Index at which `layoutCircle`'s JS Map lookup finds `nm`: the LAST
    occurrence of `nm` in `labels` (later `Map.set` calls overwrite
    earlier ones), offset by `k`. -/
def lastIdxFrom (labels : List Str) (nm : Str) (k : ℕ) : Option ℕ :=
  match labels with
  | [] => none
  | l :: rest =>
    match lastIdxFrom rest nm (k + 1) with
    | some j => some j
    | none => if l = nm then some k else none

/-- Position that `layoutCircle` assigns to index `i` of `n` labels:
    radius `max(60, min(w,h)*0.35)`, angle `i*2π/max(1,n) − π/2`,
    centered at the origin (`cx = cy = 0`). -/
noncomputable def circlePos (i n : ℕ) (w h : ℝ) : Vec2 :=
  let r := max 60 (min w h * 0.35)
  let angleStep := Real.pi * 2 / (max 1 n : ℕ)
  let a := i * angleStep - Real.pi / 2
  ⟨Real.cos a * r, Real.sin a * r⟩

/-- Body of the insertion loop of `ensureNodes`: skip a name whose node
    exists, otherwise look its position up in the circular layout and
    append a fresh node with zero velocity and base dimensions. -/
noncomputable def insStep (full : List Str) (w h bW bH : ℝ)
    (acc : List Node) (nm : Str) : List Node :=
  if acc.any (fun n => n.name == nm) then acc
  else
    match lastIdxFrom full nm 0 with
    | none => acc
    | some i => acc ++ [{ name := nm, pos := circlePos i full.length w h,
                          vel := ⟨0, 0⟩, w := bW, h := bH }]

/-- Reconcile the node map against the name set (`ensureNodes`): insert
    missing names, then delete nodes whose name is not in `names`. -/
noncomputable def ensureNodes (names : List Str) (nodes : List Node)
    (w h bW bH : ℝ) : List Node :=
  (names.foldl (insStep names w h bW bH) nodes).filter
    (fun n => decide (n.name ∈ names))

/-- Node-set effect of `drawGraph`: when the derived name set is empty the
    function returns right after rendering, BEFORE `ensureNodes` runs, so
    the node map is left untouched; otherwise it reconciles. -/
noncomputable def drawGraphNodes (edges : List Edge) (nodes : List Node)
    (w h bW bH : ℝ) : List Node :=
  match uniqueRooms edges with
  | [] => nodes
  | _ => ensureNodes (uniqueRooms edges) nodes w h bW bH

/-- Exact-real model of JS `Math.hypot(x, y)`. -/
noncomputable def hypot (x y : ℝ) : ℝ := Real.sqrt (x ^ 2 + y ^ 2)

/-- Exact-real model of `Math.sign(x) || 1` in `resolveAabbOverlap`:
    the sign of `x`, defaulting to `+1` when `x` is exactly zero. -/
noncomputable def signOr1 (x : ℝ) : ℝ :=
  if 0 < x then 1 else if x < 0 then -1 else 1

/-- Distance actually divided by in `pairwiseForces`: the JS expression
    `Math.hypot(dx, dy) || 0.0001` replaces an exactly-zero length by
    `0.0001` and keeps any nonzero length unchanged. -/
noncomputable def distOf (dx dy : ℝ) : ℝ :=
  if hypot dx dy = 0 then 0.0001 else hypot dx dy

/-- Adjacency test (`createIsConnected`): some edge joins the two names
    in either direction. -/
def isConnected (edges : List Edge) (a b : Str) : Bool :=
  edges.any (fun e => (e.src == a && e.dst == b) || (e.src == b && e.dst == a))

/-- Spring force between connected nodes (`applyConnectedForce`):
    magnitude `attractK · (dist − target)` along the unit direction,
    added to `a`'s velocity and subtracted from `b`'s. -/
noncomputable def applyConnectedForce (a b : Node) (ux uy dist dt : ℝ)
    (params : SimulationParams) : Node × Node :=
  let ra := 0.5 * hypot a.w a.h
  let rb := 0.5 * hypot b.w b.h
  let target := ra + rb + params.targetGap
  let diff := dist - target
  let f := params.attractK * diff
  ({ a with vel := ⟨a.vel.x + f * ux * dt, a.vel.y + f * uy * dt⟩ },
   { b with vel := ⟨b.vel.x - f * ux * dt, b.vel.y - f * uy * dt⟩ })

/-- Inverse-square repulsion between unconnected nodes
    (`applyRepelForce`): magnitude `repelK / dist²`, pushing apart. -/
noncomputable def applyRepelForce (a b : Node) (ux uy dist dt : ℝ)
    (params : SimulationParams) : Node × Node :=
  let f := params.repelK / (dist * dist)
  ({ a with vel := ⟨a.vel.x - f * ux * dt, a.vel.y - f * uy * dt⟩ },
   { b with vel := ⟨b.vel.x + f * ux * dt, b.vel.y + f * uy * dt⟩ })

/-- Minimal-translation separation of two axis-aligned rectangles
    (`resolveAabbOverlap`): when both axis overlaps are positive, push the
    nodes apart along the axis of smaller overlap (half the overlap each,
    sign from the positional delta, `+1` on a zero delta), halve both
    velocity components on that axis, and report `true`; otherwise leave
    both nodes untouched and report `false`. -/
noncomputable def resolveAabbOverlap (a b : Node) : Node × Node × Bool :=
  let dx := b.pos.x - a.pos.x
  let dy := b.pos.y - a.pos.y
  let overlapX := a.w / 2 + b.w / 2 - |dx|
  let overlapY := a.h / 2 + b.h / 2 - |dy|
  if 0 < overlapX ∧ 0 < overlapY then
    if overlapX < overlapY then
      let sx := signOr1 dx
      let push := overlapX / 2
      ({ a with pos := ⟨a.pos.x - sx * push, a.pos.y⟩,
                vel := ⟨a.vel.x * 0.5, a.vel.y⟩ },
       { b with pos := ⟨b.pos.x + sx * push, b.pos.y⟩,
                vel := ⟨b.vel.x * 0.5, b.vel.y⟩ }, true)
    else
      let sy := signOr1 dy
      let push := overlapY / 2
      ({ a with pos := ⟨a.pos.x, a.pos.y - sy * push⟩,
                vel := ⟨a.vel.x, a.vel.y * 0.5⟩ },
       { b with pos := ⟨b.pos.x, b.pos.y + sy * push⟩,
                vel := ⟨b.vel.x, b.vel.y * 0.5⟩ }, true)
  else (a, b, false)

/-- Per-pair body of the `pairwiseForces` loop: spring or repulsion force
    depending on adjacency, then up to two overlap-resolution passes
    (the loop `for k < 2 { if (!resolveAabbOverlap(a,b)) break }`;
    a pass that reports `false` leaves the nodes unchanged). -/
noncomputable def forcePair (conn : Bool) (dt : ℝ) (params : SimulationParams)
    (a b : Node) : Node × Node :=
  let dx := b.pos.x - a.pos.x
  let dy := b.pos.y - a.pos.y
  let dist := distOf dx dy
  let ux := dx / dist
  let uy := dy / dist
  let fb := if conn then applyConnectedForce a b ux uy dist dt params
            else applyRepelForce a b ux uy dist dt params
  let r1 := resolveAabbOverlap fb.1 fb.2
  if r1.2.2 then
    let r2 := resolveAabbOverlap r1.1 r1.2.1
    (r2.1, r2.2.1)
  else (r1.1, r1.2.1)

/-- All-pairs force pass (`pairwiseForces`): the double loop
    `for i; for j > i` over the node array, updating both nodes in
    place (modelled by `List.set`). -/
noncomputable def pairwiseForces (dt : ℝ) (params : SimulationParams)
    (edges : List Edge) (ns : List Node) : List Node :=
  (List.range ns.length).foldl (fun acc i =>
    (List.range' (i + 1) (ns.length - (i + 1))).foldl (fun acc2 j =>
      match acc2.get? i, acc2.get? j with
      | some a, some b =>
        let ab := forcePair (isConnected edges a.name b.name) dt params a b
        (acc2.set i ab.1).set j ab.2
      | _, _ => acc2) acc) ns

/-- Centering force, damping, speed clamp and position integration for
    one node (body of the loop in `integrateAndCenter`). -/
noncomputable def integrateOne (dt : ℝ) (params : SimulationParams)
    (n : Node) : Node :=
  let vx1 := n.vel.x + -n.pos.x * params.centerK * dt
  let vy1 := n.vel.y + -n.pos.y * params.centerK * dt
  let vx2 := vx1 * params.damping
  let vy2 := vy1 * params.damping
  let speed := hypot vx2 vy2
  let s := params.maxSpeed / max 0.000001 speed
  let vx3 := if params.maxSpeed < speed then vx2 * s else vx2
  let vy3 := if params.maxSpeed < speed then vy2 * s else vy2
  { n with vel := ⟨vx3, vy3⟩,
           pos := ⟨n.pos.x + vx3 * dt * 60, n.pos.y + vy3 * dt * 60⟩ }

/-- Integration pass over the node array (`integrateAndCenter`). -/
noncomputable def integrateAndCenter (dt : ℝ) (params : SimulationParams)
    (ns : List Node) : List Node :=
  ns.map (integrateOne dt params)

/-- Per-pair convergence check from `nonOverlappingAndDistancesOk`: no
    AABB overlap; if connected, distance at most `ra+rb+targetGap+4`;
    if unconnected, distance at least `ra+rb+minGap−4`. -/
noncomputable def pairOk (params : SimulationParams) (conn : Bool)
    (a b : Node) : Prop :=
  ¬(0 < a.w / 2 + b.w / 2 - |b.pos.x - a.pos.x| ∧
    0 < a.h / 2 + b.h / 2 - |b.pos.y - a.pos.y|) ∧
  (if conn then
    hypot (b.pos.x - a.pos.x) (b.pos.y - a.pos.y) ≤
      0.5 * hypot a.w a.h + 0.5 * hypot b.w b.h + params.targetGap + 4
  else
    0.5 * hypot a.w a.h + 0.5 * hypot b.w b.h + params.minGap - 4 ≤
      hypot (b.pos.x - a.pos.x) (b.pos.y - a.pos.y))

/-- Early-return double loop of `nonOverlappingAndDistancesOk`: every
    later node passes the pair check against the current head. -/
noncomputable def okPairsAll (params : SimulationParams) (edges : List Edge) :
    List Node → Prop
  | [] => True
  | a :: rest =>
    (∀ b ∈ rest, pairOk params (isConnected edges a.name b.name) a b) ∧
    okPairsAll params edges rest

/-- Velocity part of the stopping test (`velocitiesAreSlow`): every
    node's speed is strictly below `stopVel`. -/
noncomputable def velocitiesAreSlow (params : SimulationParams)
    (ns : List Node) : Prop :=
  ∀ n ∈ ns, hypot n.vel.x n.vel.y < params.stopVel

/-- Node-state effect of one controller tick (`step`): an empty array
    short-circuits; otherwise forces then integration run over the
    array snapshot. -/
noncomputable def stepNodes (dt : ℝ) (params : SimulationParams)
    (edges : List Edge) (ns : List Node) : List Node :=
  match ns with
  | [] => []
  | a :: rest =>
    integrateAndCenter dt params (pairwiseForces dt params edges (a :: rest))

/-- Whether one controller tick (`step`) calls `stop()`: immediately on
    an empty node array, else exactly when the updated array passes
    `nonOverlappingAndDistancesOk` and `velocitiesAreSlow`. -/
noncomputable def stepStops (dt : ℝ) (params : SimulationParams)
    (edges : List Edge) (ns : List Node) : Prop :=
  match ns with
  | [] => True
  | a :: rest =>
    okPairsAll params edges (stepNodes dt params edges (a :: rest)) ∧
    velocitiesAreSlow params (stepNodes dt params edges (a :: rest))

/-- Observable state of the simulation controller
    (`createSimulationController`): the `simRunning` flag and whether a
    tick callback is currently installed on the renderer
    (`setAnimationLoop(step)` installs, `setAnimationLoop(null)` clears). -/
structure Ctrl where
  running : Bool
  loopSet : Bool
deriving DecidableEq

/-- Controller state at creation: not running, no callback installed. -/
def ctrlInit : Ctrl := ⟨false, false⟩

/-- The controller's `start()`: a no-op in preview mode or when already
    running, otherwise set `simRunning` and install the tick callback. -/
def ctrlStart (preview : Bool) (c : Ctrl) : Ctrl :=
  if preview || c.running then c else ⟨true, true⟩

/-- The controller's `stop()`: a no-op when not running, otherwise clear
    `simRunning` and remove the tick callback. -/
def ctrlStop (c : Ctrl) : Ctrl :=
  if c.running then ⟨false, false⟩ else c

/-- The controller's `isRunning()`. -/
def ctrlIsRunning (c : Ctrl) : Bool := c.running

/-- Drag state (`state.drag`), the dragged node identified by name. -/
structure DragState where
  isDragging : Bool
  dragNode : Option Str
  dragOffset : Vec2

/-- Node-state effect of the pointer-move handler
    (`createPointerMoveHandler`): while a drag is active the dragged
    node's position is overwritten with `pointer + offset` and its
    velocity zeroed (then a redraw is requested); otherwise only the
    hover cursor changes and no node is touched. -/
noncomputable def onPointerMove (drag : DragState) (pt : Vec2)
    (nodes : List Node) : List Node :=
  if drag.isDragging then
    match drag.dragNode with
    | some nm =>
      nodes.map (fun n =>
        if n.name = nm then
          { n with pos := ⟨pt.x + drag.dragOffset.x, pt.y + drag.dragOffset.y⟩,
                   vel := ⟨0, 0⟩ }
        else n)
    | none => nodes
  else nodes

/-- Device-to-world transform (`getPointerWorld`): pixel offsets inside
    the canvas rectangle, recentered, with the screen Y axis flipped
    (larger world `y` means closer to the top edge of the canvas). -/
noncomputable def getPointerWorld (clientX clientY rectLeft rectTop rectW rectH : ℝ) : Vec2 :=
  ⟨clientX - rectLeft - rectW / 2, rectH / 2 - (clientY - rectTop)⟩

/-- Spec-side adjacency: the pair is joined by at least one edge in
    either direction. -/
def ConnectedProp (edges : List Edge) (a b : Str) : Prop :=
  ∃ e ∈ edges, (e.src = a ∧ e.dst = b) ∨ (e.src = b ∧ e.dst = a)

/-- Spec-side per-pair settling condition, following the spec's words:
    (a) no axis-aligned bounding-box overlap; (b) connected pairs within
    `radius(a)+radius(b)+targetGap+4`; (c) unconnected pairs at least
    `radius(a)+radius(b)+minGap−4` apart, with
    `radius(n) = 0.5·hypot(width, height)`. -/
noncomputable def specPairCond (params : SimulationParams) (edges : List Edge)
    (a b : Node) : Prop :=
  ¬(0 < a.w / 2 + b.w / 2 - |b.pos.x - a.pos.x| ∧
    0 < a.h / 2 + b.h / 2 - |b.pos.y - a.pos.y|) ∧
  (ConnectedProp edges a.name b.name →
    hypot (b.pos.x - a.pos.x) (b.pos.y - a.pos.y) ≤
      0.5 * hypot a.w a.h + 0.5 * hypot b.w b.h + params.targetGap + 4) ∧
  (¬ConnectedProp edges a.name b.name →
    0.5 * hypot a.w a.h + 0.5 * hypot b.w b.h + params.minGap - 4 ≤
      hypot (b.pos.x - a.pos.x) (b.pos.y - a.pos.y))

/-- Spec-side settling predicate: the per-pair condition for every
    unordered pair of distinct nodes, and every node's speed strictly
    below `stopVel`. -/
noncomputable def specSettled (params : SimulationParams) (edges : List Edge)
    (ns : List Node) : Prop :=
  (∀ i j (hi : i < ns.length) (hj : j < ns.length), i ≠ j →
    specPairCond params edges (ns.get ⟨i, hi⟩) (ns.get ⟨j, hj⟩)) ∧
  ∀ n ∈ ns, hypot n.vel.x n.vel.y < params.stopVel

/-- C10: both pairwise force applications add exactly opposite velocity
    deltas to the two nodes, so the vector sum of the pair's velocities
    is unchanged, for any direction, distance, time step and parameters. -/
theorem claim_C10 (a b : Node) (ux uy dist dt : ℝ) (params : SimulationParams) :
    ((applyConnectedForce a b ux uy dist dt params).1.vel.x +
      (applyConnectedForce a b ux uy dist dt params).2.vel.x =
        a.vel.x + b.vel.x) ∧
    ((applyConnectedForce a b ux uy dist dt params).1.vel.y +
      (applyConnectedForce a b ux uy dist dt params).2.vel.y =
        a.vel.y + b.vel.y) ∧
    ((applyRepelForce a b ux uy dist dt params).1.vel.x +
      (applyRepelForce a b ux uy dist dt params).2.vel.x =
        a.vel.x + b.vel.x) ∧
    ((applyRepelForce a b ux uy dist dt params).1.vel.y +
      (applyRepelForce a b ux uy dist dt params).2.vel.y =
        a.vel.y + b.vel.y) := by
  refine ⟨?_, ?_, ?_, ?_⟩ <;>
    simp only [applyConnectedForce, applyRepelForce] <;> ring

/-- C4: the controller is a two-state machine whose tick subscription
    always mirrors `simRunning`: `start()` is a no-op in preview mode or
    when already running and otherwise installs exactly one callback;
    `stop()` is idempotent and uninstalls only when running; repeated
    `start()` or `stop()` calls leave a single subscription state. -/
theorem claim_C4 (preview : Bool) (c : Ctrl) :
    (ctrlInit.loopSet = ctrlInit.running) ∧
    (c.loopSet = c.running →
      (ctrlStart preview c).loopSet = (ctrlStart preview c).running ∧
      (ctrlStop c).loopSet = (ctrlStop c).running) ∧
    (preview = true → ctrlStart preview c = c) ∧
    (c.running = true → ctrlStart preview c = c) ∧
    (c.running = false ∧ preview = false → ctrlStart preview c = ⟨true, true⟩) ∧
    (c.running = false → ctrlStop c = c) ∧
    (ctrlIsRunning c = c.running) ∧
    (ctrlStart preview (ctrlStart preview c) = ctrlStart preview c) ∧
    (ctrlStop (ctrlStop c) = ctrlStop c) := by
  rcases c with ⟨r, s⟩
  cases preview <;> cases r <;> cases s <;> decide

/-- Witness for C4 at the freshly created controller: stopping twice is
    the same as stopping once, and a first `start()` outside preview mode
    installs the callback and enters the Running state. -/
theorem claim_C4_witness :
    ctrlStop (ctrlStop ctrlInit) = ctrlStop ctrlInit ∧
    ctrlStart false ctrlInit = ⟨true, true⟩ := by
  have h := claim_C4 false ctrlInit
  exact ⟨h.2.2.2.2.2.2.2.2, h.2.2.2.2.1 ⟨rfl, rfl⟩⟩

/-- C2: with both axis overlaps positive, `resolveAabbOverlap` separates
    along the axis of smaller overlap, pushing each node half the overlap
    (sign of the positional delta, `+1` on a zero delta), halving both
    velocity components on that axis, and returns `true`; with no overlap
    it changes nothing and returns `false`. -/
theorem claim_C2 (a b : Node) :
    (0 < a.w / 2 + b.w / 2 - |b.pos.x - a.pos.x| →
     0 < a.h / 2 + b.h / 2 - |b.pos.y - a.pos.y| →
     a.w / 2 + b.w / 2 - |b.pos.x - a.pos.x| <
       a.h / 2 + b.h / 2 - |b.pos.y - a.pos.y| →
     resolveAabbOverlap a b =
       ({ a with pos := ⟨a.pos.x - signOr1 (b.pos.x - a.pos.x) *
                          ((a.w / 2 + b.w / 2 - |b.pos.x - a.pos.x|) / 2),
                        a.pos.y⟩,
                 vel := ⟨a.vel.x * 0.5, a.vel.y⟩ },
        { b with pos := ⟨b.pos.x + signOr1 (b.pos.x - a.pos.x) *
                          ((a.w / 2 + b.w / 2 - |b.pos.x - a.pos.x|) / 2),
                        b.pos.y⟩,
                 vel := ⟨b.vel.x * 0.5, b.vel.y⟩ }, true)) ∧
    (0 < a.w / 2 + b.w / 2 - |b.pos.x - a.pos.x| →
     0 < a.h / 2 + b.h / 2 - |b.pos.y - a.pos.y| →
     ¬(a.w / 2 + b.w / 2 - |b.pos.x - a.pos.x| <
        a.h / 2 + b.h / 2 - |b.pos.y - a.pos.y|) →
     resolveAabbOverlap a b =
       ({ a with pos := ⟨a.pos.x, a.pos.y - signOr1 (b.pos.y - a.pos.y) *
                          ((a.h / 2 + b.h / 2 - |b.pos.y - a.pos.y|) / 2)⟩,
                 vel := ⟨a.vel.x, a.vel.y * 0.5⟩ },
        { b with pos := ⟨b.pos.x, b.pos.y + signOr1 (b.pos.y - a.pos.y) *
                          ((a.h / 2 + b.h / 2 - |b.pos.y - a.pos.y|) / 2)⟩,
                 vel := ⟨b.vel.x, b.vel.y * 0.5⟩ }, true)) ∧
    (¬(0 < a.w / 2 + b.w / 2 - |b.pos.x - a.pos.x| ∧
       0 < a.h / 2 + b.h / 2 - |b.pos.y - a.pos.y|) →
     resolveAabbOverlap a b = (a, b, false)) := by
  refine ⟨fun h1 h2 h3 => ?_, fun h1 h2 h3 => ?_, fun h => ?_⟩
  · simp only [resolveAabbOverlap]
    rw [if_pos ⟨h1, h2⟩, if_pos h3]
  · simp only [resolveAabbOverlap]
    rw [if_pos ⟨h1, h2⟩, if_neg h3]
  · simp only [resolveAabbOverlap]
    rw [if_neg h]

/-- Witness for C2: two 10×10 rectangles offset by 2 on the x axis
    overlap with the smaller overlap on x; the call pushes them 4 units
    each along x and halves the x velocities. -/
theorem claim_C2_witness :
    resolveAabbOverlap
        ⟨['a'], ⟨0, 0⟩, ⟨4, 6⟩, 10, 10⟩ ⟨['b'], ⟨2, 0⟩, ⟨2, 2⟩, 10, 10⟩ =
      (⟨['a'], ⟨-4, 0⟩, ⟨2, 6⟩, 10, 10⟩, ⟨['b'], ⟨6, 0⟩, ⟨1, 2⟩, 10, 10⟩, true) := by
  have h := (claim_C2 ⟨['a'], ⟨0, 0⟩, ⟨4, 6⟩, 10, 10⟩
      ⟨['b'], ⟨2, 0⟩, ⟨2, 2⟩, 10, 10⟩).1
      (by norm_num) (by norm_num) (by norm_num)
  rw [h]
  norm_num [signOr1]

/-- C9 fails as stated: the JS guard `Math.hypot(dx,dy) || 0.0001` is not
    a floor; at a separation of `1e-5` the divisor is `1e-5`, strictly
    below the claimed minimum `1e-4`. -/
theorem claim_C9_counterexample :
    distOf 0.00001 0 = 0.00001 ∧ distOf 0.00001 0 < 0.0001 := by
  have hh : hypot 0.00001 0 = 0.00001 := by
    rw [hypot, show ((0.00001 : ℝ) ^ 2 + 0 ^ 2) = (0.00001 : ℝ) ^ 2 by norm_num,
      Real.sqrt_sq (by norm_num)]
  have hd : distOf 0.00001 0 = 0.00001 := by
    rw [distOf, if_neg (by rw [hh]; norm_num)]
    exact hh
  exact ⟨hd, by rw [hd]; norm_num⟩

/-- C9 amended: the divisor used for the unit direction and the repulsion
    force is always strictly positive — exactly `1e-4` when the true
    distance is zero, and the true distance itself otherwise — so no
    division by zero occurs; it is not bounded below by `1e-4`. -/
theorem claim_C9 (dx dy : ℝ) :
    0 < distOf dx dy ∧
    (hypot dx dy = 0 → distOf dx dy = 0.0001) ∧
    (hypot dx dy ≠ 0 → distOf dx dy = hypot dx dy) := by
  refine ⟨?_, fun h => by rw [distOf, if_pos h], fun h => by rw [distOf, if_neg h]⟩
  rw [distOf]
  split_ifs with h
  · norm_num
  · exact lt_of_le_of_ne (Real.sqrt_nonneg _) (Ne.symm h)

/-- Witness for C9 at coincident nodes: the zero distance is replaced by
    the positive fallback `1e-4`. -/
theorem claim_C9_witness : 0 < distOf 0 0 ∧ distOf 0 0 = 0.0001 := by
  have h := claim_C9 0 0
  refine ⟨h.1, h.2.1 ?_⟩
  rw [hypot]
  norm_num

/-- C5: while a drag is active, a pointer-move sets the dragged node's
    position to exactly `pointer + offset` and its velocity to the zero
    vector, leaves every other node untouched, and does not advance the
    simulation (the handler performs no physics step). -/
theorem claim_C5 (drag : DragState) (pt : Vec2) (nodes : List Node)
    (nm : Str) (hd : drag.isDragging = true) (hn : drag.dragNode = some nm) :
    (onPointerMove drag pt nodes).length = nodes.length ∧
    ∀ i (hi : i < nodes.length) (hig : i < (onPointerMove drag pt nodes).length),
      ((nodes.get ⟨i, hi⟩).name = nm →
        (onPointerMove drag pt nodes).get ⟨i, hig⟩ =
          { nodes.get ⟨i, hi⟩ with
              pos := ⟨pt.x + drag.dragOffset.x, pt.y + drag.dragOffset.y⟩,
              vel := ⟨0, 0⟩ }) ∧
      ((nodes.get ⟨i, hi⟩).name ≠ nm →
        (onPointerMove drag pt nodes).get ⟨i, hig⟩ = nodes.get ⟨i, hi⟩) := by
  have he : onPointerMove drag pt nodes =
      nodes.map (fun n =>
        if n.name = nm then
          { n with pos := ⟨pt.x + drag.dragOffset.x, pt.y + drag.dragOffset.y⟩,
                   vel := ⟨0, 0⟩ }
        else n) := by
    rw [onPointerMove, hd, hn]
    simp
  constructor
  · rw [he, List.length_map]
  · intro i hi hig
    constructor
    · intro hname
      simp only [he, List.get_eq_getElem, List.getElem_map]
      rw [if_pos (by simpa [List.get_eq_getElem] using hname)]
    · intro hname
      simp only [he, List.get_eq_getElem, List.getElem_map]
      rw [if_neg (by simpa [List.get_eq_getElem] using hname)]

/-- Witness for C5: dragging the single node named `a` with offset
    `(1,1)` to pointer `(2,3)` rewrites it to position `(3,4)` with zero
    velocity. -/
theorem claim_C5_witness :
    onPointerMove ⟨true, some ['a'], ⟨1, 1⟩⟩ ⟨2, 3⟩
        [⟨['a'], ⟨0, 0⟩, ⟨5, 5⟩, 80, 50⟩] =
      [⟨['a'], ⟨3, 4⟩, ⟨0, 0⟩, 80, 50⟩] := by
  have h := claim_C5 ⟨true, some ['a'], ⟨1, 1⟩⟩ ⟨2, 3⟩
      [⟨['a'], ⟨0, 0⟩, ⟨5, 5⟩, 80, 50⟩] ['a'] rfl rfl
  have hlen : (onPointerMove ⟨true, some ['a'], ⟨1, 1⟩⟩ ⟨2, 3⟩
      [⟨['a'], ⟨0, 0⟩, ⟨5, 5⟩, 80, 50⟩]).length = 1 := h.1
  have h0 := (h.2 0 (by norm_num) (by rw [hlen]; norm_num)).1 rfl
  apply List.ext_get (by simp [hlen])
  intro i h1 h2
  have hi0 : i = 0 := by
    rw [hlen] at h1
    omega
  subst hi0
  rw [h0]
  norm_num

/-- C3 fails as stated: with a nonempty node map and an empty edge list,
    `drawGraph` returns before reconciling, so the stale node survives,
    and a controller tick on the surviving fast-moving node does not
    stop. -/
theorem claim_C3_counterexample :
    drawGraphNodes [] [⟨['a'], ⟨0, 0⟩, ⟨100, 0⟩, 80, 50⟩] 640 360 80 50 =
      [⟨['a'], ⟨0, 0⟩, ⟨100, 0⟩, 80, 50⟩] ∧
    ([⟨['a'], ⟨0, 0⟩, ⟨100, 0⟩, 80, 50⟩] : List Node) ≠ [] ∧
    ¬stepStops (1 / 60) defaultParams [] [⟨['a'], ⟨0, 0⟩, ⟨100, 0⟩, 80, 50⟩] := by
  refine ⟨rfl, by simp, ?_⟩
  have hpair : pairwiseForces (1 / 60) defaultParams []
      [⟨['a'], ⟨0, 0⟩, ⟨100, 0⟩, 80, 50⟩] =
      [⟨['a'], ⟨0, 0⟩, ⟨100, 0⟩, 80, 50⟩] := rfl
  have hspeed : hypot ((100 + -(0 : ℝ) * defaultParams.centerK * (1 / 60)) *
      defaultParams.damping)
      ((0 + -(0 : ℝ) * defaultParams.centerK * (1 / 60)) * defaultParams.damping) = 90 := by
    rw [hypot, defaultParams]
    norm_num
    rw [show (8100 : ℝ) = 90 ^ 2 by norm_num, Real.sqrt_sq (by norm_num)]
  have hint : stepNodes (1 / 60) defaultParams []
      [⟨['a'], ⟨0, 0⟩, ⟨100, 0⟩, 80, 50⟩] =
      [⟨['a'], ⟨90, 0⟩, ⟨90, 0⟩, 80, 50⟩] := by
    show integrateAndCenter (1 / 60) defaultParams
        (pairwiseForces (1 / 60) defaultParams []
          [⟨['a'], ⟨0, 0⟩, ⟨100, 0⟩, 80, 50⟩]) = _
    rw [hpair, integrateAndCenter]
    simp only [List.map_cons, List.map_nil, integrateOne]
    rw [List.cons.injEq]
    constructor
    · rw [Node.mk.injEq]
      refine ⟨rfl, ?_, ?_, rfl, rfl⟩ <;>
        rw [Vec2.mk.injEq] <;>
        rw [if_neg (by rw [hspeed, defaultParams]; norm_num),
            if_neg (by rw [hspeed, defaultParams]; norm_num)] <;>
        constructor <;> rw [defaultParams] <;> norm_num
    · rfl
  intro hst
  have hst' : okPairsAll defaultParams []
        (stepNodes (1 / 60) defaultParams [] [⟨['a'], ⟨0, 0⟩, ⟨100, 0⟩, 80, 50⟩]) ∧
      velocitiesAreSlow defaultParams
        (stepNodes (1 / 60) defaultParams [] [⟨['a'], ⟨0, 0⟩, ⟨100, 0⟩, 80, 50⟩]) := hst
  rw [hint] at hst'
  have h90 : hypot (90 : ℝ) 0 < defaultParams.stopVel :=
    hst'.2 ⟨['a'], ⟨90, 0⟩, ⟨90, 0⟩, 80, 50⟩ (by simp)
  rw [hypot, show ((90 : ℝ) ^ 2 + 0 ^ 2) = 90 ^ 2 by norm_num,
    Real.sqrt_sq (by norm_num), defaultParams] at h90
  norm_num at h90

/-- C3 amended: when the relation text parses to an empty edge list,
    `drawGraph` returns before reconciliation, so the node map is left
    exactly as it was (stale nodes are retained, not deleted); the
    controller tick stops immediately only when the node map is already
    empty. -/
theorem claim_C3 (nodes : List Node) (w h bW bH dt : ℝ)
    (params : SimulationParams) (edges : List Edge) :
    parseEdges [] = [] ∧
    drawGraphNodes [] nodes w h bW bH = nodes ∧
    stepStops dt params edges [] := by
  refine ⟨?_, rfl, trivial⟩
  have hs : splitNlPlus [] = [[]] := by
    rw [splitNlPlus]
    rfl
  rw [parseEdges, hs]
  rfl

/-- Elements of the accumulator survive the insertion loop of
    `ensureNodes` unchanged: the loop only ever appends. -/
theorem insFold_mem (full : List Str) (w h bW bH : ℝ) :
    ∀ (queue : List Str) (acc : List Node) (x : Node), x ∈ acc →
      x ∈ queue.foldl (insStep full w h bW bH) acc := by
  intro queue
  induction queue with
  | nil => intro acc x hx; exact hx
  | cons q rest ih =>
    intro acc x hx
    apply ih
    rw [insStep]
    split_ifs with hb
    · exact hx
    · cases hj : lastIdxFrom full q 0 with
      | none => exact hx
      | some i => exact List.mem_append_left _ hx


/-- The JS Map built by `layoutCircle` has no entry for a name absent
    from the labels. -/
theorem lastIdxFrom_eq_none (nm : Str) :
    ∀ (labels : List Str) (k : ℕ), nm ∉ labels →
      lastIdxFrom labels nm k = none := by
  intro labels
  induction labels with
  | nil => intro k _; rfl
  | cons l rest ih =>
    intro k h
    have h1 : ¬(l = nm) := fun e => h (e ▸ List.mem_cons_self l rest)
    have h2 : nm ∉ rest := fun m => h (List.mem_cons_of_mem l m)
    rw [lastIdxFrom, ih (k + 1) h2]
    exact if_neg h1

/-- The JS Map built by `layoutCircle` has an entry for every label. -/
theorem lastIdxFrom_isSome (nm : Str) :
    ∀ (labels : List Str) (k : ℕ), nm ∈ labels →
      ∃ j, lastIdxFrom labels nm k = some j := by
  intro labels
  induction labels with
  | nil => intro k h; cases h
  | cons l rest ih =>
    intro k h
    rw [lastIdxFrom]
    cases hr : lastIdxFrom rest nm (k + 1) with
    | some j => exact ⟨j, rfl⟩
    | none =>
      rcases List.mem_cons.mp h with he | hm
      · exact ⟨k, if_pos he.symm⟩
      · rcases ih (k + 1) hm with ⟨j, hj⟩
        rw [hj] at hr
        cases hr

/-- On duplicate-free labels, the `layoutCircle` Map entry of the label
    at index `i` is exactly index `i` (shifted by the start offset). -/
theorem lastIdxFrom_nodup (nm : Str) :
    ∀ (labels : List Str) (k i : ℕ) (hi : i < labels.length),
      labels.Nodup → labels.get ⟨i, hi⟩ = nm →
      lastIdxFrom labels nm k = some (k + i) := by
  intro labels
  induction labels with
  | nil => intro k i hi; exact absurd hi (Nat.not_lt_zero i)
  | cons l rest ih =>
    intro k i hi hnd hget
    cases i with
    | zero =>
      have hl : l = nm := hget
      have hnm : nm ∉ rest := fun m => (List.nodup_cons.mp hnd).1 (hl ▸ m)
      rw [lastIdxFrom, lastIdxFrom_eq_none nm rest (k + 1) hnm]
      exact if_pos hl
    | succ i' =>
      have hi' : i' < rest.length := by
        simp only [List.length_cons] at hi
        omega
      have hget' : rest.get ⟨i', hi'⟩ = nm := hget
      rw [lastIdxFrom, ih (k + 1) i' hi' (List.Nodup.of_cons hnd) hget']
      exact congrArg some (by omega)

/-- A name whose node is already in the accumulator stays present
    through the insertion loop of `ensureNodes`. -/
theorem insFold_present (full : List Str) (w h bW bH : ℝ) :
    ∀ (queue : List Str) (acc : List Node) (nm : Str),
      nm ∈ queue → (∃ j, lastIdxFrom full nm 0 = some j) →
      ∃ n ∈ queue.foldl (insStep full w h bW bH) acc, n.name = nm := by
  intro queue
  induction queue with
  | nil => intro acc nm hq; cases hq
  | cons q rest ih =>
    intro acc nm hq hj
    by_cases he : nm = q
    · subst he
      by_cases hb : acc.any (fun n => n.name == nm) = true
      · rcases List.any_eq_true.mp hb with ⟨n, hn, hbeq⟩
        have hname : n.name = nm := eq_of_beq hbeq
        refine ⟨n, insFold_mem full w h bW bH rest _ n ?_, hname⟩
        rw [insStep, if_pos hb]
        exact hn
      · rcases hj with ⟨j, hj⟩
        refine ⟨{ name := nm, pos := circlePos j full.length w h,
                  vel := ⟨0, 0⟩, w := bW, h := bH }, ?_, rfl⟩
        apply insFold_mem full w h bW bH rest
        rw [insStep, if_neg hb, hj]
        exact List.mem_append_right _ (List.mem_singleton.mpr rfl)
    · have hm : nm ∈ rest := by
        rcases List.mem_cons.mp hq with h1 | h1
        · exact absurd h1 he
        · exact h1
      exact ih (insStep full w h bW bH acc q) nm hm hj

/-- Every node produced by the insertion loop is either an original
    accumulator node or a freshly seeded one (zero velocity, base
    dimensions). -/
theorem insFold_src (full : List Str) (w h bW bH : ℝ) :
    ∀ (queue : List Str) (acc : List Node) (x : Node),
      x ∈ queue.foldl (insStep full w h bW bH) acc →
      x ∈ acc ∨ (x.vel = ⟨0, 0⟩ ∧ x.w = bW ∧ x.h = bH) := by
  intro queue
  induction queue with
  | nil => intro acc x hx; exact Or.inl hx
  | cons q rest ih =>
    intro acc x hx
    rcases ih (insStep full w h bW bH acc q) x hx with hacc | hfresh
    · rw [insStep] at hacc
      by_cases hb : acc.any (fun n => n.name == q) = true
      · rw [if_pos hb] at hacc
        exact Or.inl hacc
      · rw [if_neg hb] at hacc
        cases hj : lastIdxFrom full q 0 with
        | none =>
          rw [hj] at hacc
          exact Or.inl hacc
        | some i =>
          rw [hj] at hacc
          rcases List.mem_append.mp hacc with h1 | h1
          · exact Or.inl h1
          · rw [List.mem_singleton.mp h1]
            exact Or.inr ⟨rfl, rfl, rfl⟩
    · exact Or.inr hfresh

/-- When every queued name already has a node in the accumulator, the
    insertion loop of `ensureNodes` changes nothing. -/
theorem insFold_noop (full : List Str) (w h bW bH : ℝ) :
    ∀ (queue : List Str) (acc : List Node),
      (∀ nm ∈ queue, ∃ n ∈ acc, n.name = nm) →
      queue.foldl (insStep full w h bW bH) acc = acc := by
  intro queue
  induction queue with
  | nil => intro acc _; rfl
  | cons q rest ih =>
    intro acc hpres
    have hstep : insStep full w h bW bH acc q = acc := by
      rcases hpres q (List.mem_cons_self q rest) with ⟨n, hn, hname⟩
      rw [insStep, if_pos (List.any_eq_true.mpr
        ⟨n, hn, by rw [hname]; exact beq_self_eq_true q⟩)]
    rw [List.foldl_cons, hstep]
    exact ih acc (fun nm hm => hpres nm (List.mem_cons_of_mem q hm))

/-- Every name in the reconciled name set has a node afterwards. -/
theorem ensureNodes_names_present (names : List Str) (nodes : List Node)
    (w h bW bH : ℝ) (nm : Str) (hm : nm ∈ names) :
    ∃ n ∈ ensureNodes names nodes w h bW bH, n.name = nm := by
  rcases insFold_present names w h bW bH names nodes nm hm
      (lastIdxFrom_isSome nm names 0 hm) with ⟨n, hn, hname⟩
  refine ⟨n, ?_, hname⟩
  rw [ensureNodes]
  exact List.mem_filter.mpr ⟨hn, by rw [hname]; exact decide_eq_true hm⟩

/-- C6: node reconciliation is idempotent and frame-preserving — a
    second run with the same name set is a no-op, every present node
    whose name survives keeps its exact position/velocity/size record,
    every surviving node's name is in the name set, and any other node
    of the result is a fresh seed with zero velocity and base size. -/
theorem claim_C6 (names : List Str) (nodes : List Node) (w h bW bH : ℝ) :
    ensureNodes names (ensureNodes names nodes w h bW bH) w h bW bH =
      ensureNodes names nodes w h bW bH ∧
    (∀ n ∈ nodes, n.name ∈ names → n ∈ ensureNodes names nodes w h bW bH) ∧
    (∀ n ∈ ensureNodes names nodes w h bW bH, n.name ∈ names) ∧
    (∀ n ∈ ensureNodes names nodes w h bW bH,
      n ∈ nodes ∨ (n.vel = ⟨0, 0⟩ ∧ n.w = bW ∧ n.h = bH)) := by
  have hsub : ∀ n ∈ ensureNodes names nodes w h bW bH, n.name ∈ names := by
    intro n hn
    rw [ensureNodes] at hn
    exact of_decide_eq_true (List.mem_filter.mp hn).2
  refine ⟨?_, ?_, hsub, ?_⟩
  · rw [ensureNodes, insFold_noop names w h bW bH names
      (ensureNodes names nodes w h bW bH)
      (fun nm hm => ensureNodes_names_present names nodes w h bW bH nm hm)]
    exact List.filter_eq_self.mpr (fun n hn => decide_eq_true (hsub n hn))
  · intro n hn hname
    rw [ensureNodes]
    exact List.mem_filter.mpr
      ⟨insFold_mem names w h bW bH names nodes n hn, decide_eq_true hname⟩
  · intro n hn
    rw [ensureNodes] at hn
    exact insFold_src names w h bW bH names nodes n (List.mem_filter.mp hn).1

/-- Witness for C6: a node named `a` with an arbitrary frame survives a
    reconciliation against the unchanged name set. -/
theorem claim_C6_witness :
    (⟨['a'], ⟨1, 2⟩, ⟨3, 4⟩, 80, 50⟩ : Node) ∈
      ensureNodes [['a']] [⟨['a'], ⟨1, 2⟩, ⟨3, 4⟩, 80, 50⟩] 640 360 80 50 := by
  exact (claim_C6 [['a']] [⟨['a'], ⟨1, 2⟩, ⟨3, 4⟩, 80, 50⟩] 640 360 80 50).2.1
    _ (List.mem_singleton.mpr rfl) (List.mem_singleton.mpr rfl)

/-- A queued name with no node yet gets the seeded node inserted by the
    insertion loop of `ensureNodes`, at the layout position recorded for
    it in the `layoutCircle` map. -/
theorem insFold_inserts (full : List Str) (w h bW bH : ℝ) :
    ∀ (queue : List Str) (acc : List Node) (nm : Str) (j : ℕ),
      nm ∈ queue → (∀ n ∈ acc, n.name ≠ nm) →
      lastIdxFrom full nm 0 = some j →
      ({ name := nm, pos := circlePos j full.length w h,
         vel := ⟨0, 0⟩, w := bW, h := bH } : Node) ∈
        queue.foldl (insStep full w h bW bH) acc := by
  intro queue
  induction queue with
  | nil => intro acc nm j hq; cases hq
  | cons q rest ih =>
    intro acc nm j hq hacc hj
    by_cases he : nm = q
    · subst he
      have hb : acc.any (fun n => n.name == nm) = false := by
        rw [← Bool.not_eq_true, List.any_eq_true]
        rintro ⟨n, hn, hbeq⟩
        exact hacc n hn (eq_of_beq hbeq)
      apply insFold_mem full w h bW bH rest
      rw [insStep, if_neg (by rw [hb]; exact Bool.false_ne_true), hj]
      exact List.mem_append_right _ (List.mem_singleton.mpr rfl)
    · have hm : nm ∈ rest := by
        rcases List.mem_cons.mp hq with h1 | h1
        · exact absurd h1 he
        · exact h1
      refine ih (insStep full w h bW bH acc q) nm j hm ?_ hj
      intro n hn
      rw [insStep] at hn
      by_cases hb : acc.any (fun n => n.name == q) = true
      · rw [if_pos hb] at hn
        exact hacc n hn
      · rw [if_neg hb] at hn
        cases hl : lastIdxFrom full q 0 with
        | none =>
          rw [hl] at hn
          exact hacc n hn
        | some i =>
          rw [hl] at hn
          rcases List.mem_append.mp hn with h1 | h1
          · exact hacc n h1
          · rw [List.mem_singleton.mp h1]
            intro hcon
            exact he hcon.symm

/-- C8 amended: a first-seen name is seeded with zero velocity, base
    width/height, and the circular-layout position of its index — radius
    `max(60, 0.35·min(w,h))`, angle `i·2π/N − π/2` — which places the
    FIRST node at the bottom of the (y-up) world frame, the nodes evenly
    spaced counterclockwise on screen, not at the top clockwise. -/
theorem claim_C8 (names : List Str) (nodes : List Node) (w h bW bH : ℝ)
    (nm : Str) (i : ℕ) (hi : i < names.length) (hnd : names.Nodup)
    (hget : names.get ⟨i, hi⟩ = nm) (habs : ∀ n ∈ nodes, n.name ≠ nm) :
    ({ name := nm, pos := circlePos i names.length w h,
       vel := ⟨0, 0⟩, w := bW, h := bH } : Node) ∈
      ensureNodes names nodes w h bW bH ∧
    circlePos i names.length w h =
      ⟨Real.cos ((i : ℝ) * (2 * Real.pi / (names.length : ℝ)) - Real.pi / 2) *
         max 60 (min w h * 0.35),
       Real.sin ((i : ℝ) * (2 * Real.pi / (names.length : ℝ)) - Real.pi / 2) *
         max 60 (min w h * 0.35)⟩ := by
  constructor
  · have hj : lastIdxFrom names nm 0 = some i := by
      have := lastIdxFrom_nodup nm names 0 i hi hnd hget
      rwa [Nat.zero_add] at this
    have hmem : nm ∈ names := hget ▸ names.get_mem i hi
    rw [ensureNodes]
    refine List.mem_filter.mpr
      ⟨insFold_inserts names w h bW bH names nodes nm i hmem habs hj, ?_⟩
    exact decide_eq_true hmem
  · have hN : (max 1 names.length : ℕ) = names.length :=
      Nat.max_eq_right (by omega)
    simp only [circlePos, hN]
    have harg : (i : ℝ) * (Real.pi * 2 / (names.length : ℝ)) - Real.pi / 2 =
        (i : ℝ) * (2 * Real.pi / (names.length : ℝ)) - Real.pi / 2 := by
      ring
    rw [harg]

/-- Witness for C8 on the two names `a`, `b` in a 400×400 viewport with
    an empty node map: the node seeded for `a` (index 0) is inserted. -/
theorem claim_C8_witness :
    ({ name := ['a'], pos := circlePos 0 2 400 400,
       vel := ⟨0, 0⟩, w := 80, h := 50 } : Node) ∈
      ensureNodes [['a'], ['b']] [] 400 400 80 50 := by
  exact (claim_C8 [['a'], ['b']] [] 400 400 80 50 ['a'] 0 (by norm_num)
    (by decide) rfl (by simp)).1

/-- C8 fails as stated on the "first node at the top" reading: with two
    names in a 400×400 viewport, the first node lands at world
    `(0, −140)` and the second at `(0, 140)`; by the code's own
    device-to-world transform those correspond to canvas pixel rows 340
    and 60, so the FIRST node lies below the second, not at the top. -/
theorem claim_C8_counterexample :
    circlePos 0 2 400 400 = ⟨0, -140⟩ ∧
    circlePos 1 2 400 400 = ⟨0, 140⟩ ∧
    (getPointerWorld 200 340 0 0 400 400).y = -140 ∧
    (getPointerWorld 200 60 0 0 400 400).y = 140 ∧
    (60 : ℝ) < 340 := by
  have hr : max (60 : ℝ) (min (400 : ℝ) 400 * 0.35) = 140 := by
    rw [min_self, max_eq_right (by norm_num : (60 : ℝ) ≤ 400 * 0.35)]
    norm_num
  have hN : ((max 1 2 : ℕ) : ℝ) = 2 := by norm_num
  refine ⟨?_, ?_, ?_, ?_, by norm_num⟩
  · simp only [circlePos, hN, hr]
    have h0 : ((0 : ℕ) : ℝ) * (Real.pi * 2 / 2) - Real.pi / 2 =
        -(Real.pi / 2) := by
      push_cast
      ring
    rw [h0, Real.cos_neg, Real.cos_pi_div_two, Real.sin_neg,
      Real.sin_pi_div_two]
    rw [Vec2.mk.injEq]
    norm_num
  · simp only [circlePos, hN, hr]
    have h1 : ((1 : ℕ) : ℝ) * (Real.pi * 2 / 2) - Real.pi / 2 =
        Real.pi / 2 := by
      push_cast
      ring
    rw [h1, Real.cos_pi_div_two, Real.sin_pi_div_two]
    rw [Vec2.mk.injEq]
    norm_num
  · rw [getPointerWorld]
    norm_num
  · rw [getPointerWorld]
    norm_num

/-- The boolean adjacency test of the code agrees with the spec-side
    existential adjacency. -/
theorem isConnected_iff (edges : List Edge) (a b : Str) :
    isConnected edges a b = true ↔ ConnectedProp edges a b := by
  simp [isConnected, ConnectedProp, List.any_eq_true]

/-- The per-pair convergence check of the code agrees with the spec-side
    per-pair condition. -/
theorem pairOk_iff (params : SimulationParams) (edges : List Edge)
    (a b : Node) :
    pairOk params (isConnected edges a.name b.name) a b ↔
      specPairCond params edges a b := by
  rw [pairOk, specPairCond]
  cases hc : isConnected edges a.name b.name with
  | true =>
    have hcp : ConnectedProp edges a.name b.name := (isConnected_iff _ _ _).mp hc
    rw [if_pos rfl]
    constructor
    · rintro ⟨h1, h2⟩
      exact ⟨h1, fun _ => h2, fun hn => absurd hcp hn⟩
    · rintro ⟨h1, h2, _⟩
      exact ⟨h1, h2 hcp⟩
  | false =>
    have hcp : ¬ConnectedProp edges a.name b.name := by
      rw [← isConnected_iff edges a.name b.name, hc]
      exact Bool.false_ne_true
    rw [if_neg Bool.false_ne_true]
    constructor
    · rintro ⟨h1, h2⟩
      exact ⟨h1, fun hcc => absurd hcc hcp, fun _ => h2⟩
    · rintro ⟨h1, _, h3⟩
      exact ⟨h1, h3 hcp⟩

/-- The spec-side per-pair condition is symmetric in the two nodes. -/
theorem specPairCond_comm (params : SimulationParams) (edges : List Edge)
    (a b : Node) :
    specPairCond params edges a b → specPairCond params edges b a := by
  rintro ⟨h1, h2, h3⟩
  have hdist : hypot (a.pos.x - b.pos.x) (a.pos.y - b.pos.y) =
      hypot (b.pos.x - a.pos.x) (b.pos.y - a.pos.y) := by
    rw [hypot, hypot]
    ring_nf
  have hconn : ConnectedProp edges b.name a.name ↔
      ConnectedProp edges a.name b.name := by
    constructor <;> rintro ⟨e, he, hor⟩ <;> exact ⟨e, he, hor.symm⟩
  refine ⟨?_, ?_, ?_⟩
  · rintro ⟨hx, hy⟩
    apply h1
    rw [abs_sub_comm a.pos.x b.pos.x] at hx
    rw [abs_sub_comm a.pos.y b.pos.y] at hy
    exact ⟨by linarith, by linarith⟩
  · intro hc
    have := h2 (hconn.mp hc)
    rw [hdist]
    linarith
  · intro hc
    have := h3 (fun hcc => hc (hconn.mpr hcc))
    rw [hdist]
    linarith

/-- The early-return double loop of the code equals `List.Pairwise` of
    the spec-side pair condition. -/
theorem okPairsAll_iff (params : SimulationParams) (edges : List Edge) :
    ∀ ns : List Node,
      okPairsAll params edges ns ↔
        ns.Pairwise (fun a b => specPairCond params edges a b) := by
  intro ns
  induction ns with
  | nil => simp [okPairsAll]
  | cons a rest ih =>
    rw [okPairsAll, List.pairwise_cons]
    constructor
    · rintro ⟨h1, h2⟩
      exact ⟨fun b hb => (pairOk_iff params edges a b).mp (h1 b hb), ih.mp h2⟩
    · rintro ⟨h1, h2⟩
      exact ⟨fun b hb => (pairOk_iff params edges a b).mpr (h1 b hb), ih.mpr h2⟩

/-- Pairwise over the ordered loop equals the condition on every
    unordered pair of distinct indices, by symmetry. -/
theorem pairwise_iff_distinct (params : SimulationParams) (edges : List Edge)
    (ns : List Node) :
    ns.Pairwise (fun a b => specPairCond params edges a b) ↔
      ∀ i j (hi : i < ns.length) (hj : j < ns.length), i ≠ j →
        specPairCond params edges (ns.get ⟨i, hi⟩) (ns.get ⟨j, hj⟩) := by
  rw [List.pairwise_iff_get]
  constructor
  · intro hp i j hi hj hne
    rcases Nat.lt_or_ge i j with hlt | hge
    · exact hp ⟨i, hi⟩ ⟨j, hj⟩ hlt
    · have hlt : j < i := by omega
      exact specPairCond_comm params edges _ _ (hp ⟨j, hj⟩ ⟨i, hi⟩ hlt)
  · intro hp i j hlt
    have hij : (i : ℕ) < (j : ℕ) := hlt
    exact hp i j i.isLt j.isLt (by omega)

/-- C1: one controller tick stops itself exactly when the updated node
    state satisfies the spec's settling condition — pairwise no-overlap
    and gap bounds for every unordered pair of distinct nodes together
    with every speed strictly below `stopVel` (the empty node set stops
    immediately and satisfies the condition vacuously). -/
theorem claim_C1 (dt : ℝ) (params : SimulationParams) (edges : List Edge)
    (ns : List Node) :
    stepStops dt params edges ns ↔
      specSettled params edges (stepNodes dt params edges ns) := by
  cases ns with
  | nil =>
    constructor
    · intro _
      exact ⟨fun i j hi hj _ => absurd hi (Nat.not_lt_zero i),
             fun n hn => absurd hn (List.not_mem_nil n)⟩
    · intro _
      trivial
  | cons a rest =>
    show (okPairsAll params edges (stepNodes dt params edges (a :: rest)) ∧
          velocitiesAreSlow params (stepNodes dt params edges (a :: rest))) ↔ _
    rw [specSettled]
    exact and_congr
      ((okPairsAll_iff params edges _).trans (pairwise_iff_distinct params edges _))
      Iff.rfl

/-- Dropping whitespace skips over an all-whitespace prefix. -/
theorem dropWhile_append_ws (w x : Str) (hw : ∀ c ∈ w, wsChar c = true) :
    (w ++ x).dropWhile wsChar = x.dropWhile wsChar := by
  induction w with
  | nil => rfl
  | cons c w' ih =>
    rw [List.cons_append, List.dropWhile_cons,
      if_pos (hw c (List.mem_cons_self c w'))]
    exact ih (fun d hd => hw d (List.mem_cons_of_mem c hd))

/-- Trimming ignores an all-whitespace prefix. -/
theorem trimStr_append_ws (w x : Str) (hw : ∀ c ∈ w, wsChar c = true) :
    trimStr (w ++ x) = trimStr x := by
  rw [trimStr, trimStr, dropWhile_append_ws w x hw]

/-- Declarative reading of the claim's line format: the trimmed line
    decomposes as a nonempty left part, whitespace, the literal arrow,
    whitespace, and a nonempty right part, with the left part as short
    as possible (the non-greedy group); both parts are nonempty after
    trimming and give the edge's endpoints. -/
def SpecLineMatch (l : Str) (e : Edge) : Prop :=
  ∃ g1 w1 w2 t : Str,
    l = g1 ++ w1 ++ ['=', '>'] ++ w2 ++ t ∧
    g1 ≠ [] ∧ (∀ c ∈ w1, wsChar c = true) ∧ (∀ c ∈ w2, wsChar c = true) ∧
    t ≠ [] ∧
    (∀ g1x w1x w2x tx : Str,
      l = g1x ++ w1x ++ ['=', '>'] ++ w2x ++ tx → g1x ≠ [] →
      (∀ c ∈ w1x, wsChar c = true) → (∀ c ∈ w2x, wsChar c = true) →
      tx ≠ [] → g1.length ≤ g1x.length) ∧
    trimStr g1 ≠ [] ∧ trimStr t ≠ [] ∧
    e = ⟨trimStr g1, trimStr t⟩

/-- Soundness and completeness of the tail matcher for
    `\s*=>\s*(.+)$`: it succeeds exactly on a whitespace prefix, the
    literal arrow, and a nonempty remainder. -/
theorem matchTail_iff (rest r3 : Str) :
    matchTail rest = some r3 ↔
      ∃ w1 : Str, rest = w1 ++ ['=', '>'] ++ r3 ∧
        (∀ c ∈ w1, wsChar c = true) ∧ r3 ≠ [] := by
  constructor
  · intro h
    rw [matchTail] at h
    split at h
    · rename_i c1 c2 r3' heq
      split_ifs at h with h12 hemp
      have h' : r3' = r3 := Option.some.inj h
      subst h'
      refine ⟨rest.takeWhile wsChar, ?_, ?_, ?_⟩
      · conv_lhs => rw [← List.takeWhile_append_dropWhile wsChar rest]
        rw [heq, h12.1, h12.2]
        simp
      · intro c hc
        exact List.mem_takeWhile_imp hc
      · intro hr
        rw [hr] at hemp
        exact hemp rfl
    · cases h
  · rintro ⟨w1, hsplit, hws, hr3⟩
    have hd : rest.dropWhile wsChar = '=' :: '>' :: r3 := by
      rw [hsplit, List.append_assoc, dropWhile_append_ws w1 _ hws]
      rw [show (['=', '>'] ++ r3 : Str) = '=' :: '>' :: r3 by simp]
      rw [List.dropWhile_cons, if_neg (by decide)]
    rw [matchTail, hd]
    show (if '=' = '=' ∧ '>' = '>' then
        (if r3.isEmpty = true then none else some r3) else none) = some r3
    rw [if_pos ⟨rfl, rfl⟩,
      if_neg (fun hem => hr3 (List.isEmpty_iff.mp hem))]

/-- The backtracking matcher fails exactly when no nonempty prefix
    leaves a remainder accepted by the tail matcher. -/
theorem findArrow_none_iff :
    ∀ (rest acc : Str),
      findArrow acc rest = none ↔
        ∀ pre rest2 : Str, rest = pre ++ rest2 → pre ≠ [] →
          matchTail rest2 = none := by
  intro rest
  induction rest with
  | nil =>
    intro acc
    constructor
    · intro _ pre rest2 hsplit hpre
      exact absurd (List.append_eq_nil.mp hsplit.symm).1 hpre
    · intro _
      rfl
  | cons c rs ih =>
    intro acc
    rw [findArrow]
    cases hm : matchTail rs with
    | some r =>
      constructor
      · intro h
        exact Option.noConfusion h
      · intro hall
        exact absurd (hall [c] rs rfl (by simp)) (by rw [hm]; simp)
    | none =>
      rw [ih (acc ++ [c])]
      constructor
      · intro hall pre rest2 hsplit hpre
        obtain ⟨p, pre', rfl⟩ := List.exists_cons_of_ne_nil hpre
        rw [List.cons_append] at hsplit
        injection hsplit with h1 h2
        by_cases hp' : pre' = []
        · subst hp'
          simp only [List.nil_append] at h2
          rw [← h2]
          exact hm
        · exact hall pre' rest2 h2 hp'
      · intro hall pre rest2 hsplit hpre
        exact hall (c :: pre) rest2 (by rw [List.cons_append, ← hsplit])
          (List.cons_ne_nil c pre)

/-- The backtracking matcher succeeds exactly on the split with the
    shortest nonempty first group whose remainder the tail matcher
    accepts — the non-greedy `(.+?)` semantics. -/
theorem findArrow_some_iff :
    ∀ (rest acc g1 r3 : Str),
      findArrow acc rest = some (g1, r3) ↔
        ∃ pre rest2 : Str, rest = pre ++ rest2 ∧ pre ≠ [] ∧
          matchTail rest2 = some r3 ∧ g1 = acc ++ pre ∧
          ∀ pre2 rest2x : Str, rest = pre2 ++ rest2x → pre2 ≠ [] →
            (matchTail rest2x).isSome = true → pre.length ≤ pre2.length := by
  intro rest
  induction rest with
  | nil =>
    intro acc g1 r3
    constructor
    · intro h
      rw [findArrow] at h
      cases h
    · rintro ⟨pre, rest2, hsplit, hpre, -, -, -⟩
      exact absurd (List.append_eq_nil.mp hsplit.symm).1 hpre
  | cons c rs ih =>
    intro acc g1 r3
    rw [findArrow]
    cases hm : matchTail rs with
    | some r =>
      constructor
      · intro h
        have h' := Option.some.inj h
        rw [Prod.mk.injEq] at h'
        refine ⟨[c], rs, rfl, by simp, by rw [hm, h'.2], h'.1.symm, ?_⟩
        intro pre2 rest2x hsp2 hpre2 hsome
        have hlen := List.length_pos.mpr hpre2
        simp only [List.length_singleton]
        omega
      · rintro ⟨pre, rest2, hsplit, hpre, hmt, hg1, hmin⟩
        have hle : pre.length ≤ 1 := by
          have := hmin [c] rs rfl (by simp) (by rw [hm]; rfl)
          simpa using this
        obtain ⟨p, pre', rfl⟩ := List.exists_cons_of_ne_nil hpre
        have hp' : pre' = [] := by
          simp only [List.length_cons] at hle
          exact List.length_eq_zero.mp (by omega)
        subst hp'
        simp only [List.cons_append, List.nil_append] at hsplit
        injection hsplit with h1 h2
        subst h1
        subst h2
        rw [hm] at hmt
        have hr := Option.some.inj hmt
        rw [hg1, hr]
    | none =>
      rw [ih (acc ++ [c]) g1 r3]
      constructor
      · rintro ⟨pre, rest2, hsplit, hpre, hmt, hg1, hmin⟩
        refine ⟨c :: pre, rest2, by rw [List.cons_append, ← hsplit],
          List.cons_ne_nil c pre, hmt, by rw [hg1]; simp, ?_⟩
        intro pre2 rest2x hsp2 hpre2 hsome
        obtain ⟨p2, pre2', rfl⟩ := List.exists_cons_of_ne_nil hpre2
        rw [List.cons_append] at hsp2
        injection hsp2 with h1 h2
        by_cases hp2' : pre2' = []
        · subst hp2'
          simp only [List.nil_append] at h2
          rw [← h2, hm] at hsome
          simp at hsome
        · have := hmin pre2' rest2x h2 hp2' hsome
          simp only [List.length_cons]
          omega
      · rintro ⟨preB, rest2, hsplit, hpreB, hmt, hg1, hmin⟩
        obtain ⟨p, pre, rfl⟩ := List.exists_cons_of_ne_nil hpreB
        rw [List.cons_append] at hsplit
        injection hsplit with h1 h2
        subst h1
        by_cases hpre : pre = []
        · subst hpre
          simp only [List.nil_append] at h2
          rw [← h2, hm] at hmt
          cases hmt
        · refine ⟨pre, rest2, h2, hpre, hmt, by rw [hg1]; simp, ?_⟩
          intro pre2 rest2x hsp hpre2 hsome
          have := hmin (c :: pre2) rest2x (by rw [List.cons_append, hsp])
            (List.cons_ne_nil c pre2) hsome
          simp only [List.length_cons] at this
          omega

/-- The per-line matcher accepts exactly the lines admitted by the
    declarative regex reading, and produces the trimmed endpoints. -/
theorem matchLine_iff (l : Str) (e : Edge) :
    matchLine l = some e ↔ SpecLineMatch l e := by
  constructor
  · intro h
    rw [matchLine] at h
    cases hf : findArrow [] l with
    | none =>
      rw [hf] at h
      exact Option.noConfusion h
    | some pr =>
      obtain ⟨g1, g2⟩ := pr
      rw [hf] at h
      have h2 : (if (trimStr g1).isEmpty || (trimStr g2).isEmpty then none
          else some ({ src := trimStr g1, dst := trimStr g2 } : Edge)) = some e := h
      by_cases hemp : ((trimStr g1).isEmpty || (trimStr g2).isEmpty) = true
      · rw [if_pos hemp] at h2
        exact Option.noConfusion h2
      · rw [if_neg hemp] at h2
        have he := Option.some.inj h2
        rw [Bool.or_eq_true] at hemp
        push_neg at hemp
        have hg1ne : trimStr g1 ≠ [] := fun hx => hemp.1 (by rw [hx]; rfl)
        have hg2ne : trimStr g2 ≠ [] := fun hx => hemp.2 (by rw [hx]; rfl)
        obtain ⟨pre, rest2, hsplit, hpre, hmt, hg1e, hmin⟩ :=
          (findArrow_some_iff l [] g1 g2).mp hf
        have hg1p : g1 = pre := by simpa using hg1e
        obtain ⟨w1, hres2, hw1, hg2ne'⟩ := (matchTail_iff rest2 g2).mp hmt
        refine ⟨pre, w1, [], g2, ?_, hpre, hw1, by simp, hg2ne', ?_, ?_, hg2ne, ?_⟩
        · rw [hsplit, hres2]
          simp [List.append_assoc]
        · intro g1x w1x w2x tx hlx hg1x hw1x hw2x htx
          have hmtx : matchTail (w1x ++ ['=', '>'] ++ (w2x ++ tx)) =
              some (w2x ++ tx) :=
            (matchTail_iff _ _).mpr ⟨w1x, by simp [List.append_assoc], hw1x,
              fun hc => htx (List.append_eq_nil.mp hc).2⟩
          exact hmin g1x (w1x ++ ['=', '>'] ++ (w2x ++ tx))
            (by rw [hlx]; simp [List.append_assoc]) hg1x (by rw [hmtx]; rfl)
        · rw [← hg1p]
          exact hg1ne
        · rw [← he, hg1p]
  · rintro ⟨g1, w1, w2, t, hl, hg1, hw1, hw2, ht, hmin, htg1, htt, he⟩
    have hw2t_ne : w2 ++ t ≠ [] := fun hc => ht (List.append_eq_nil.mp hc).2
    have hmt2 : matchTail (w1 ++ ['=', '>'] ++ (w2 ++ t)) = some (w2 ++ t) :=
      (matchTail_iff _ _).mpr ⟨w1, by simp [List.append_assoc], hw1, hw2t_ne⟩
    have hlsplit : l = g1 ++ (w1 ++ ['=', '>'] ++ (w2 ++ t)) := by
      rw [hl]
      simp [List.append_assoc]
    have hnone : findArrow [] l ≠ none := by
      intro hn
      have hc := (findArrow_none_iff l []).mp hn g1 _ hlsplit hg1
      rw [hmt2] at hc
      cases hc
    obtain ⟨pr, hf⟩ := Option.ne_none_iff_exists'.mp hnone
    obtain ⟨g1', r3'⟩ := pr
    obtain ⟨pre, rest2, hsplit, hpre, hmt', hg1', hmin'⟩ :=
      (findArrow_some_iff l [] g1' r3').mp hf
    have hg1'' : g1' = pre := by simpa using hg1'
    have hle1 : pre.length ≤ g1.length :=
      hmin' g1 _ hlsplit hg1 (by rw [hmt2]; rfl)
    have hle2 : g1.length ≤ pre.length := by
      obtain ⟨w1', hres2, hw1', hr3ne⟩ := (matchTail_iff rest2 r3').mp hmt'
      exact hmin pre w1' [] r3'
        (by rw [hsplit, hres2]; simp [List.append_assoc]) hpre hw1' (by simp) hr3ne
    obtain ⟨hpg1, hpg2⟩ :
        pre = g1 ∧ rest2 = w1 ++ ['=', '>'] ++ (w2 ++ t) :=
      List.append_inj (hsplit.symm.trans hlsplit) (by omega)
    rw [hpg2, hmt2] at hmt'
    have hr3' : w2 ++ t = r3' := Option.some.inj hmt'
    have htrim_r3 : trimStr r3' = trimStr t := by
      rw [← hr3', trimStr_append_ws w2 t hw2]
    have htrim_g1 : trimStr g1' = trimStr g1 := by rw [hg1'', hpg1]
    rw [matchLine, hf]
    show (if (trimStr g1').isEmpty || (trimStr r3').isEmpty then none
        else some ({ src := trimStr g1', dst := trimStr r3' } : Edge)) = some e
    rw [if_neg (by
      rw [htrim_g1, htrim_r3, Bool.or_eq_true]
      push_neg
      exact ⟨fun hx => htg1 (List.isEmpty_iff.mp hx),
             fun hx => htt (List.isEmpty_iff.mp hx)⟩)]
    rw [htrim_g1, htrim_r3, he]

/-- C7: `parseEdges` returns exactly the edges obtained by splitting on
    newline runs, trimming, dropping blank lines, and keeping — in
    source order, never raising an error — the lines that decompose as
    `left => right` with a non-greedy left part and both sides nonempty
    after trimming. -/
theorem claim_C7 (input l : Str) (e : Edge) :
    parseEdges input =
      (((splitNlPlus input).map trimStr).filter
        (fun s => !s.isEmpty)).filterMap matchLine ∧
    (matchLine l = some e ↔ SpecLineMatch l e) :=
  ⟨rfl, matchLine_iff l e⟩

end PlanBuilder
